import Mathlib

/-!
Shallow embedding of the real-root-finding TypeScript/JavaScript sources:
the polynomial transformation module, the Horner evaluation helper and the
root-finding orchestrator module.  JavaScript numbers are modelled as exact
rationals (`ℚ`); coefficient arrays as `List ℚ` (index `i` holds the
coefficient of `x^i`).  A function that mutates the caller's array is
modelled by also returning the argument's final state; a JavaScript `throw`
is modelled with `Except`/`Option`.
-/

namespace PolyRoots

/-- The literal lookup table of the source's `binomial` helper: rows for
`n = 4 .. 10`, row `n` holding `C(n,2), C(n,3), ...` up to the symmetry
midpoint. -/
def binomialTable : List (List ℕ) :=
  [[6], [10], [15, 20], [21, 35], [28, 56, 70], [36, 84, 126], [45, 120, 210, 252]]

/-- The source's cached `binomial(n, k)` helper.  The guards are transcribed in
source order: `k > n` (with `k < 0` impossible for `ℕ`) returns `0`; `k = 0` or
`k = n` returns `1`; `k = 1` or `k = n - 1` returns `n`; then the symmetry
reduction `k := n - k` when `k > n / 2` (for integers, floating `k > n/2`
agrees with natural floor division), the lookup-table branch, and Pascal's
rule.  The memoization cache is write-once and idempotent, hence
semantically transparent, and is not modelled.  The first pattern is split on
the first argument so that the recursion is structural; for `n = 0` every
source guard is already decided before the table branch, so the two
definitions agree. -/
def binomial : ℕ → ℕ → ℕ
  | 0, k => if 0 < k then 0 else 1
  | n + 1, k =>
    if n + 1 < k then 0
    else if k = 0 ∨ k = n + 1 then 1
    else if k = 1 ∨ k = n then n + 1
    else
      let k' := if (n + 1) / 2 < k then n + 1 - k else k
      if n + 1 ≤ 10 ∧ k' < (binomialTable.getD (n + 1 - 4) []).length then
        (binomialTable.getD (n + 1 - 4) []).getD (k' - 2) 0
      else binomial n (k' - 1) + binomial n k'

/-- Inner loop of the source's `taylorShift`: for a fixed term index `i`, add
`p[i] * C(i,k) * shift^(i-k)` into coefficient `k` for each `k < i`.  The
source reads `polynomial[i]` from the unmodified argument, as modelled by
`p.getD i 0`. -/
def taylorShiftInner (p : List ℚ) (shift : ℚ) (new : List ℚ) (i : ℕ) : List ℚ :=
  (List.range i).foldl
    (fun acc k => acc.set k (acc.getD k 0 + p.getD i 0 * (binomial i k : ℚ) * shift ^ (i - k)))
    new

/-- The source's `taylorShift(polynomial, shift)`: coefficients of
`p(x + shift)` accumulated into a fresh copy of the coefficient array.  The
source's outer loop runs `i = 1 .. length-1`; index `0` is included here with
an empty inner loop, which is the same thing. -/
def taylorShift (polynomial : List ℚ) (shift : ℚ) : List ℚ :=
  (List.range polynomial.length).foldl (taylorShiftInner polynomial shift) polynomial

/-- Inner loop of `taylorShiftBy1` (the `shift = 1` specialization, with the
power factor dropped because it is always `1`). -/
def taylorShiftBy1Inner (p : List ℚ) (new : List ℚ) (i : ℕ) : List ℚ :=
  (List.range i).foldl
    (fun acc k => acc.set k (acc.getD k 0 + p.getD i 0 * (binomial i k : ℚ)))
    new

/-- The source's `taylorShiftBy1(polynomial)`. -/
def taylorShiftBy1 (polynomial : List ℚ) : List ℚ :=
  (List.range polynomial.length).foldl (taylorShiftBy1Inner polynomial) polynomial

/-- The source's `reversed(polynomial)`: a reversed copy. -/
def reversed (polynomial : List ℚ) : List ℚ :=
  polynomial.reverse

/-- Index-aware map with structural recursion (JavaScript's `Array.map`
passes `(element, index)`; here the index comes first). -/
def mapWithIndex (f : ℕ → ℚ → ℚ) : ℕ → List ℚ → List ℚ
  | _, [] => []
  | i, c :: rest => f i c :: mapWithIndex f (i + 1) rest

/-- The source's `scaleInput(polynomial, scaleFactor)`: coefficient `i`
multiplied by `scaleFactor^i`. -/
def scaleInput (polynomial : List ℚ) (scaleFactor : ℚ) : List ℚ :=
  mapWithIndex (fun i coefficient => scaleFactor ^ i * coefficient) 0 polynomial

/-- The source's `scaleInputInReverseOrder(polynomial, scaleFactor)`:
coefficient `i` multiplied by `scaleFactor^(degree - i)`. -/
def scaleInputInReverseOrder (polynomial : List ℚ) (scaleFactor : ℚ) : List ℚ :=
  mapWithIndex (fun i coefficient => scaleFactor ^ (polynomial.length - 1 - i) * coefficient)
    0 polynomial

/-- The source's private in-place `scale(coefficients, scaleFactor)` helper:
its loop starts at index `1`, leaving index `0` untouched (the `i = 0` case of
the map below). -/
def scale (coefficients : List ℚ) (scaleFactor : ℚ) : List ℚ :=
  mapWithIndex (fun i c => if i = 0 then c else scaleFactor ^ i * c) 0 coefficients

/-- The source's private `scaleCoefficients` helper, whose body is identical
to `scale`. -/
def scaleCoefficients (coefficients : List ℚ) (scaleFactor : ℚ) : List ℚ :=
  mapWithIndex (fun i c => if i = 0 then c else scaleFactor ^ i * c) 0 coefficients

/-- The source's `mapIntervalToPositiveReals(polynomial, interval)`.  The two
Taylor-shift steps call functions that return fresh arrays without mutating
their argument, and the source discards both return values (kept here as
unused `let` bindings), so only the in-place scaling and reversal take
effect. -/
def mapIntervalToPositiveReals (polynomial : List ℚ) (interval : ℚ × ℚ) : List ℚ :=
  let transformedCoefficients := polynomial
  let leftBound := interval.1
  let rightBound := interval.2
  -- Step 1 in the source: `taylorShift(transformedCoefficients, leftBound);`
  -- (result discarded, argument unchanged).
  let _ := taylorShift transformedCoefficients leftBound
  -- Step 2: in-place scaling by `rightBound - leftBound`.
  let transformedCoefficients := scale transformedCoefficients (rightBound - leftBound)
  -- Step 3: in-place reversal.
  let transformedCoefficients := transformedCoefficients.reverse
  -- Step 4 in the source: `taylorShiftBy1(transformedCoefficients);`
  -- (result discarded, argument unchanged).
  let _ := taylorShiftBy1 transformedCoefficients
  transformedCoefficients

/-- The source's `mapUnitIntervalToPositiveReals(polynomial)`: the reversal is
in place, but the `taylorShiftBy1` return value is discarded (kept as an
unused `let`), so only the reversal takes effect. -/
def mapUnitIntervalToPositiveReals (polynomial : List ℚ) : List ℚ :=
  let transformedCoefficients := polynomial.reverse
  let _ := taylorShiftBy1 transformedCoefficients
  transformedCoefficients

/-- The source's `transformedForLowerInterval(polynomial, scale)`: in-place
coefficient scaling and reversal; the final `taylorShift(·, 1)` return value
is discarded. -/
def transformedForLowerInterval (polynomial : List ℚ) (scaleFactor : ℚ) : List ℚ :=
  let transformedCoefficients := scaleCoefficients polynomial scaleFactor
  let transformedCoefficients := transformedCoefficients.reverse
  let _ := taylorShift transformedCoefficients 1
  transformedCoefficients

/-- The composite transform that the spec (and the source's own doc comment)
describes for `mapIntervalToPositiveReals`: Taylor shift by `a`, input
scaling by `b - a`, coefficient reversal, Taylor shift by `1`, in that
order.  This follows the spec's words and is compared against the
definition transcribed from the code. -/
def specMapIntervalToPositiveReals (polynomial : List ℚ) (interval : ℚ × ℚ) : List ℚ :=
  taylorShiftBy1 (List.reverse (scale (taylorShift polynomial interval.1) (interval.2 - interval.1)))

/-- The evaluation helper module's `evaluatePolynomial(poly, x)`: Horner's
method from the highest index down. -/
def evaluatePolynomial (poly : List ℚ) (x : ℚ) : ℚ :=
  poly.foldr (fun c result => result * x + c) 0

/-- JavaScript's `Number.EPSILON` (`2^-52`), used by the orchestrator's
numerically-zero test on the constant term. -/
def numberEpsilon : ℚ := 1 / 2 ^ 52

/-- Fuel-driven decimal logarithm on naturals: `natLog10go fuel n` counts how
often `n` can be divided by `10` before dropping below `10`.  With
`fuel ≥ n` this is `⌊log10 n⌋` for `n ≥ 1`. -/
def natLog10go : ℕ → ℕ → ℕ
  | 0, _ => 0
  | fuel + 1, n => if n < 10 then 0 else natLog10go fuel (n / 10) + 1

/-- Value `⌊log10 n⌋` for `n ≥ 1` (and `0` for `n = 0`). -/
def natLog10 (n : ℕ) : ℕ :=
  natLog10go n n

/-- Fuel-driven search for the least `j` with `1 ≤ q * 10^j`. -/
def posExp10 : ℕ → ℚ → ℕ
  | 0, _ => 0
  | fuel + 1, q => if 1 ≤ q then 0 else posExp10 fuel (q * 10) + 1

/-- Exact model of `Math.floor(Math.log10 q)` for a positive rational `q`:
for `q ≥ 1` it counts the decimal digits of `⌊q⌋`; for `0 < q < 1` it is
`-(j)` for the least `j ≥ 1` with `1 ≤ q * 10^j` (the fuel
`natLog10 q.den + 1` always suffices because `q ≥ 1/q.den`).  The value at
`q ≤ 0` is irrelevant: the caller tests `precision ≤ 0` first. -/
def floorLog10 (q : ℚ) : ℤ :=
  if 1 ≤ q then (natLog10 ⌊q⌋.toNat : ℤ)
  else -(posExp10 (natLog10 q.den + 1) (q * 10) + 1 : ℕ)

/-- The source's `calculateDecimalPlacesFromPrecision(precision)`:
non-positive precision is defused to `0` decimal places, otherwise the count
is `-Math.floor(Math.log10(precision))`. -/
def calculateDecimalPlacesFromPrecision (precision : ℚ) : ℤ :=
  if precision ≤ 0 then 0 else -floorLog10 precision

/-- Rounding to an integer as `Number.prototype.toFixed` does: the
ECMAScript algorithm takes the absolute value first and breaks ties by
picking the larger candidate, i.e. it rounds half away from zero. -/
def jsRoundHalfAwayFromZero (x : ℚ) : ℤ :=
  if x < 0 then -⌊-x + 1 / 2⌋ else ⌊x + 1 / 2⌋

/-- Model of `parseFloat(num.toFixed(digits))`: `toFixed` throws a `RangeError`
(modelled as `none`) unless `0 ≤ digits ≤ 100`; for `|num| ≥ 10^21` it
returns `ToString(num)`, which `parseFloat` reads back as `num`; otherwise
the value is `num` rounded (half away from zero) to `digits` decimal
places. -/
def jsToFixed (num : ℚ) (digits : ℤ) : Option ℚ :=
  if 0 ≤ digits ∧ digits ≤ 100 then
    if 10 ^ 21 ≤ |num| then some num
    else some ((jsRoundHalfAwayFromZero (num * 10 ^ digits.toNat) : ℚ) / 10 ^ digits.toNat)
  else none

/-- The source's `roundToPrecisionBasedOnDecimal(num, precision)`:
`parseFloat(num.toFixed(calculateDecimalPlacesFromPrecision(precision)))`. -/
def roundToPrecisionBasedOnDecimal (num precision : ℚ) : Option ℚ :=
  jsToFixed num (calculateDecimalPlacesFromPrecision precision)

/-- The exceptions the orchestrator module can throw: the explicit
`"The polynomial cannot be empty."` error, and the `RangeError` that
`toFixed` raises for a decimal-place count outside `[0, 100]`. -/
inductive JsError
  | emptyInput
  | toFixedRange
  deriving DecidableEq

/-- The source's `insertRootSorted(roots, newRoot, tolerance)`: scan left to
right; if an existing entry is within `tolerance` of `newRoot`, return the
list unchanged; otherwise splice `newRoot` in before the first larger
entry (or at the end). -/
def insertRootSorted (roots : List ℚ) (newRoot : ℚ) (tolerance : ℚ) : List ℚ :=
  match roots with
  | [] => [newRoot]
  | r :: rest =>
    if |newRoot - r| ≤ tolerance then r :: rest
    else if newRoot < r then newRoot :: r :: rest
    else r :: insertRootSorted rest newRoot tolerance

/-- One iteration of the `processRoots` closure inside the source's
`findAllRealRoots`: refine the isolating interval by bisection, undo the
negation bookkeeping when `isNegative` is set (the source's `rawRoot` and
`root` locals are inlined here), round, and insert into the running sorted
root list.  A `RangeError` thrown by the rounding step aborts the loop, as
a JavaScript throw would. -/
def processRootsStep (refine : (ℚ → ℚ) → ℚ × ℚ → ℚ → ℚ)
    (poly : List ℚ) (isNegative : Bool) (precision : ℚ)
    (roots : List ℚ) (interval : ℚ × ℚ) : Except JsError (List ℚ) :=
  match roundToPrecisionBasedOnDecimal
      (if isNegative then -(refine (fun x => evaluatePolynomial poly x) interval precision)
       else refine (fun x => evaluatePolynomial poly x) interval precision) precision with
  | some rounded => Except.ok (insertRootSorted roots rounded precision)
  | none => Except.error JsError.toFixedRange

/-- The `processRoots` closure: isolate the positive roots of `poly`, then
run `processRootsStep` on each isolated interval.  The collaborators
`isolatePositiveRealRootsContinuedFractions` (`isolate`) and
`refineRootIntervalBisection` (`refine`) are modules outside the embedded
sources and are passed as parameters. -/
def processRoots (isolate : List ℚ → List (ℚ × ℚ))
    (refine : (ℚ → ℚ) → ℚ × ℚ → ℚ → ℚ)
    (poly : List ℚ) (isNegative : Bool) (precision : ℚ)
    (roots : List ℚ) : Except JsError (List ℚ) :=
  (isolate poly).foldlM (processRootsStep refine poly isNegative precision) roots

/-- The source's `findAllRealRoots(polynomial, precision)`, parametrized by
its collaborators `makeSquareFree`, `hasStrictlyNegativeRoots`,
`hasStrictlyPositiveRoots`, `isolate` and `refine` (modules outside the
embedded sources).  The first component is the returned root list (or the
thrown error); the second component is the final state of the caller's
`polynomial` array: the source computes `makeSquareFree(polynomial)` first,
then, when the constant term is numerically zero, pushes the root `0` and
executes `polynomial.splice(0, 1)` on the caller's array (the spliced array
is not read again afterwards). -/
def findAllRealRoots (makeSquareFree : List ℚ → List ℚ)
    (hasStrictlyNegativeRoots hasStrictlyPositiveRoots : List ℚ → Bool)
    (isolate : List ℚ → List (ℚ × ℚ))
    (refine : (ℚ → ℚ) → ℚ × ℚ → ℚ → ℚ)
    (polynomial : List ℚ) (precision : ℚ) :
    Except JsError (List ℚ) × List ℚ :=
  if polynomial.length = 0 then (Except.error JsError.emptyInput, polynomial)
  else
    let squareFreePolynomial := makeSquareFree polynomial
    let zeroConstant := |polynomial.getD 0 0| < numberEpsilon
    let roots0 : List ℚ := if zeroConstant then [0] else []
    let polynomialAfter := if zeroConstant then polynomial.drop 1 else polynomial
    let afterNegative : Except JsError (List ℚ) :=
      if hasStrictlyNegativeRoots squareFreePolynomial then
        processRoots isolate refine (scaleInput squareFreePolynomial (-1)) true precision roots0
      else Except.ok roots0
    let result := afterNegative.bind fun roots1 =>
      if hasStrictlyPositiveRoots squareFreePolynomial then
        processRoots isolate refine squareFreePolynomial false precision roots1
      else Except.ok roots1
    (result, polynomialAfter)

/-- The orchestration order stated by the spec: record the root at `0` and
drop the constant term first, and only then compute the square-free
reduction, from that remaining (constant-term-dropped) polynomial.  This
follows the spec's words and is compared against the definition
transcribed from the code. -/
def findAllRealRootsSpecOrder (makeSquareFree : List ℚ → List ℚ)
    (hasStrictlyNegativeRoots hasStrictlyPositiveRoots : List ℚ → Bool)
    (isolate : List ℚ → List (ℚ × ℚ))
    (refine : (ℚ → ℚ) → ℚ × ℚ → ℚ → ℚ)
    (polynomial : List ℚ) (precision : ℚ) :
    Except JsError (List ℚ) × List ℚ :=
  if polynomial.length = 0 then (Except.error JsError.emptyInput, polynomial)
  else
    let zeroConstant := |polynomial.getD 0 0| < numberEpsilon
    let roots0 : List ℚ := if zeroConstant then [0] else []
    let remaining := if zeroConstant then polynomial.drop 1 else polynomial
    let squareFreePolynomial := makeSquareFree remaining
    let afterNegative : Except JsError (List ℚ) :=
      if hasStrictlyNegativeRoots squareFreePolynomial then
        processRoots isolate refine (scaleInput squareFreePolynomial (-1)) true precision roots0
      else Except.ok roots0
    let result := afterNegative.bind fun roots1 =>
      if hasStrictlyPositiveRoots squareFreePolynomial then
        processRoots isolate refine squareFreePolynomial false precision roots1
      else Except.ok roots1
    (result, remaining)

/-- The source's `findStrictlyPositiveRoots(polynomial, precision)`,
parametrized by its collaborators. -/
def findStrictlyPositiveRoots (makeSquareFree : List ℚ → List ℚ)
    (hasStrictlyPositiveRoots : List ℚ → Bool)
    (isolate : List ℚ → List (ℚ × ℚ))
    (refine : (ℚ → ℚ) → ℚ × ℚ → ℚ → ℚ)
    (polynomial : List ℚ) (precision : ℚ) : List ℚ :=
  if ¬ hasStrictlyPositiveRoots polynomial then []
  else
    let squareFreePolynomial := makeSquareFree polynomial
    (isolate squareFreePolynomial).map fun interval =>
      refine (fun x => evaluatePolynomial squareFreePolynomial x) interval precision

/-- Most-significant-first decimal digit values of a natural number
(fuel-driven so that the recursion is structural and kernel-reducible). -/
def natDigitsGo : ℕ → ℕ → List ℕ
  | 0, _ => []
  | fuel + 1, n => if n < 10 then [n] else natDigitsGo fuel (n / 10) ++ [n % 10]

/-- Decimal digit values of a natural number, most significant first. -/
def natDigits (n : ℕ) : List ℕ :=
  natDigitsGo (n + 1) n

/-- Least `k` (starting from `start`, fuel-bounded) with `d ∣ 10^k`. -/
def dvdPowExp : ℕ → ℕ → ℕ → Option ℕ
  | 0, _, _ => none
  | fuel + 1, d, k => if d ∣ 10 ^ k then some k else dvdPowExp fuel d (k + 1)

/-- UTF-16 code units of the ECMAScript decimal representation of the
non-negative rational `n / d` (given in lowest terms), for values whose
shortest representation is a plain decimal numeral: the least `k` with
`d ∣ 10^k` gives the number of fraction digits, and because `n` and `d` are
coprime the fraction has no trailing zero, which is exactly the shortest
round-tripping decimal.  (The exponential forms ECMAScript uses for
magnitudes `≥ 1e21` or `< 1e-6`, and non-decimal denominators, are outside
the modelled domain and return `[]`.)  Code units: `48 + digit` for
digits and `46` for the decimal point. -/
def jsDecimalCodeUnits (n d : ℕ) : List ℕ :=
  match dvdPowExp 101 d 0 with
  | none => []
  | some k =>
    let ds := natDigits (n * (10 ^ k / d))
    if k = 0 then ds.map (fun digit => 48 + digit)
    else
      let padded := List.replicate (k + 1 - ds.length) 0 ++ ds
      let intLen := padded.length - k
      (padded.take intLen).map (fun digit => 48 + digit) ++ [46] ++
        (padded.drop intLen).map (fun digit => 48 + digit)

/-- UTF-16 code units of `ToString(q)` for a rational in the plain-decimal
domain; `45` is the code unit of the minus sign. -/
def jsNumberCodeUnits (q : ℚ) : List ℕ :=
  (if q < 0 then [45] else []) ++ jsDecimalCodeUnits q.num.natAbs q.den

/-- Lexicographic comparison of code-unit sequences, as ECMAScript's
default `Array.prototype.sort` comparator compares the `ToString` images of
its elements. -/
def codeUnitsLt : List ℕ → List ℕ → Bool
  | [], [] => false
  | [], _ :: _ => true
  | _ :: _, [] => false
  | a :: as, b :: bs => if a < b then true else if b < a then false else codeUnitsLt as bs

/-- Insertion step of the default-comparator sort: place `x` before the
first element whose string image is strictly greater. -/
def jsInsert (x : ℚ) : List ℚ → List ℚ
  | [] => [x]
  | y :: ys =>
    if codeUnitsLt (jsNumberCodeUnits x) (jsNumberCodeUnits y) then x :: y :: ys
    else y :: jsInsert x ys

/-- JavaScript `Array.prototype.sort()` with the default comparator: the
elements are ordered by the lexicographic comparison of their `ToString`
images.  (The algorithm engines use differs from this insertion sort, but
for elements with pairwise distinct string images — the only case arising
below — the resulting sequence is the same.) -/
def jsSortDefault (l : List ℚ) : List ℚ :=
  l.foldr jsInsert []

/-- The source's `findStrictlyNegativeRoots(polynomial, precision)`,
parametrized by its collaborators.  The final step is
`negatedNegativeRoots.map(root => -root).sort()` — `sort` with no
comparator, i.e. the default string comparator. -/
def findStrictlyNegativeRoots (makeSquareFree : List ℚ → List ℚ)
    (hasStrictlyNegativeRoots : List ℚ → Bool)
    (isolate : List ℚ → List (ℚ × ℚ))
    (refine : (ℚ → ℚ) → ℚ × ℚ → ℚ → ℚ)
    (polynomial : List ℚ) (precision : ℚ) : List ℚ :=
  if ¬ hasStrictlyNegativeRoots polynomial then []
  else
    let squareFreePolynomial := makeSquareFree polynomial
    let negatedPolynomial := scaleInput squareFreePolynomial (-1)
    let negatedNegativeRoots := (isolate negatedPolynomial).map fun interval =>
      refine (fun x => evaluatePolynomial negatedPolynomial x) interval precision
    jsSortDefault (negatedNegativeRoots.map fun root => -root)

/-- Fuel-driven bisection loop, modelled from the spec (see
`refineRootIntervalBisection`). -/
def bisectGo (f : ℚ → ℚ) (precision : ℚ) : ℕ → ℚ × ℚ → ℚ
  | 0, (a, b) => (a + b) / 2
  | fuel + 1, (a, b) =>
    if b - a < precision then (a + b) / 2
    else
      let m := (a + b) / 2
      if f m = 0 then m
      else if f a * f m < 0 then bisectGo f precision fuel (a, m)
      else bisectGo f precision fuel (m, b)

/-- Modelled from the spec: `refineRootIntervalBisection` (its source file is
not among the embedded sources; spec §4.4): repeatedly halve the isolating
interval, keeping the half whose endpoints bracket a sign change, until the
width drops below the precision threshold; return the midpoint, or the
point itself as soon as an evaluation lands exactly on zero.  The fuel
bounds the number of halvings; it is immaterial for the concrete instances
proved here, which terminate by the width test or a zero hit. -/
def refineRootIntervalBisection (f : ℚ → ℚ) (interval : ℚ × ℚ) (precision : ℚ) : ℚ :=
  bisectGo f precision 200 interval

/-- The root-list invariant of the spec: strictly increasing with adjacent
entries differing by more than the tolerance. -/
def rootListChain (tolerance : ℚ) (l : List ℚ) : Prop :=
  l.Chain' fun a b => a + tolerance < b

/-- The common shape of the Taylor-shift inner loops: add `f k` into
coefficient `k` for every `k < j`.  `taylorShiftInner p s L i` is
definitionally `setAddFold (fun k => p[i] * C(i,k) * s^(i-k)) i L`. -/
def setAddFold (f : ℕ → ℚ) (j : ℕ) (L : List ℚ) : List ℚ :=
  (List.range j).foldl (fun acc k => acc.set k (acc.getD k 0 + f k)) L

/-! ### Theorems -/

/-- The lookup-table helper agrees with the true binomial coefficients on all
small inputs (in particular everywhere the literal table or its guard can be
reached). -/
theorem binomial_small : ∀ n < 11, ∀ k < 12, binomial n k = n.choose k := by decide

/-- C1: the claim states that `mapIntervalToPositiveReals(p, [a,b])` performs
shift by `a`, scale by `b-a`, reversal, shift by `1`.  In the code the two
Taylor-shift calls return fresh arrays that are discarded, so only the
scaling and the reversal take effect: on `p = [0,1]` (the polynomial `x`)
and `[a,b] = [1,2]` the code returns `[1,0]` while the claimed composition
(the source's own doc comment) yields `[2,1]`. -/
theorem mapIntervalToPositiveReals_drops_shifts :
    mapIntervalToPositiveReals [0, 1] (1, 2) = [1, 0] ∧
      specMapIntervalToPositiveReals [0, 1] (1, 2) = [2, 1] ∧
      ([1, 0] : List ℚ) ≠ [2, 1] := by
  refine ⟨?_, ?_, by norm_num⟩
  · norm_num [mapIntervalToPositiveReals, scale, mapWithIndex]
  · norm_num [specMapIntervalToPositiveReals, taylorShift, taylorShiftInner,
      taylorShiftBy1, taylorShiftBy1Inner, scale, mapWithIndex, List.range_succ,
      binomial]

/-- Extracting the canonical denominator of a quotient of coprime integers. -/
theorem rat_den_of_div (a b : ℤ) (hb : 0 < b) (hc : Nat.Coprime a.natAbs b.natAbs) :
    ((a : ℚ) / (b : ℚ)).den = b.toNat := by
  have h := Rat.den_div_eq_of_coprime hb hc
  omega

/-- Extracting the canonical numerator of a quotient of coprime integers. -/
theorem rat_num_of_div (a b : ℤ) (hb : 0 < b) (hc : Nat.Coprime a.natAbs b.natAbs) :
    ((a : ℚ) / (b : ℚ)).num = a :=
  Rat.num_div_eq_of_coprime hb hc

/-- The canonical denominator of the default precision `1e-5`. -/
theorem den_one_div_100000 : ((1 : ℚ) / 100000).den = 100000 := by
  have h : ((1 : ℚ) / 100000) = ((1 : ℤ) : ℚ) / ((100000 : ℤ) : ℚ) := by norm_num
  rw [h, rat_den_of_div 1 100000 (by norm_num) (by decide)]
  rfl

/-- Value `⌊log10 1e-5⌋ = -5` in the exact model. -/
theorem floorLog10_precision : floorLog10 ((1 : ℚ) / 100000) = -5 := by
  rw [floorLog10, if_neg (by norm_num), den_one_div_100000]
  norm_num [natLog10, natLog10go, posExp10]

/-- The decimal-place count at the default precision `1e-5` is `5`. -/
theorem decimalPlaces_precision :
    calculateDecimalPlacesFromPrecision ((1 : ℚ) / 100000) = 5 := by
  rw [calculateDecimalPlacesFromPrecision, if_neg (by norm_num), floorLog10_precision]
  norm_num

/-- Rounding `1` at the default precision `1e-5` gives back `1`. -/
theorem round_one_precision : roundToPrecisionBasedOnDecimal 1 ((1 : ℚ) / 100000) = some 1 := by
  rw [roundToPrecisionBasedOnDecimal, decimalPlaces_precision, jsToFixed,
    if_pos (by norm_num), if_neg (by norm_num)]
  have ht : ((5 : ℤ)).toNat = 5 := rfl
  rw [ht, jsRoundHalfAwayFromZero, if_neg (by norm_num)]
  have hf : ⌊(1 : ℚ) * 10 ^ (5 : ℕ) + 1 / 2⌋ = 100000 := by
    rw [Int.floor_eq_iff]
    norm_num
  rw [hf]
  norm_num

/-- A single `processRoots` step fails only with the `toFixed` range error. -/
theorem processRootsStep_error_eq (refine : (ℚ → ℚ) → ℚ × ℚ → ℚ → ℚ)
    (poly : List ℚ) (isNegative : Bool) (precision : ℚ) (roots : List ℚ)
    (interval : ℚ × ℚ) (e : JsError)
    (h : processRootsStep refine poly isNegative precision roots interval = Except.error e) :
    e = JsError.toFixedRange := by
  rw [processRootsStep] at h
  rcases hr : roundToPrecisionBasedOnDecimal
      (if isNegative then -(refine (fun x => evaluatePolynomial poly x) interval precision)
       else refine (fun x => evaluatePolynomial poly x) interval precision) precision with _ | r
  · simp only [hr] at h
    cases h
    rfl
  · simp only [hr] at h
    cases h

/-- The only error `processRoots` can produce is the `toFixed` range error. -/
theorem processRoots_error_eq (isolate : List ℚ → List (ℚ × ℚ))
    (refine : (ℚ → ℚ) → ℚ × ℚ → ℚ → ℚ) (poly : List ℚ) (isNegative : Bool)
    (precision : ℚ) (roots : List ℚ) (e : JsError)
    (h : processRoots isolate refine poly isNegative precision roots = Except.error e) :
    e = JsError.toFixedRange := by
  rw [processRoots] at h
  generalize isolate poly = ivs at h
  induction ivs generalizing roots with
  | nil =>
    simp only [List.foldlM_nil] at h
    exact absurd h (by simp [pure, Except.pure])
  | cons iv ivs ih =>
    rw [List.foldlM_cons] at h
    cases hs : processRootsStep refine poly isNegative precision roots iv with
    | error f =>
      rw [hs] at h
      simp only [bind, Except.bind] at h
      cases h
      exact processRootsStep_error_eq refine poly isNegative precision roots iv _ hs
    | ok l =>
      rw [hs] at h
      simp only [bind, Except.bind] at h
      exact ih _ h

/-- C2: the claim states that `mapUnitIntervalToPositiveReals(p)` equals
`taylorShiftBy1(reversed(p))`.  In the code the `taylorShiftBy1` return
value is discarded, so only the reversal takes effect: on `p = [1,1]` the
code returns `[1,1]` while `taylorShiftBy1(reversed(p))` is `[2,1]`. -/
theorem mapUnitIntervalToPositiveReals_drops_shift :
    mapUnitIntervalToPositiveReals [1, 1] = [1, 1] ∧
      taylorShiftBy1 (reversed [1, 1]) = [2, 1] ∧
      ([1, 1] : List ℚ) ≠ [2, 1] := by
  refine ⟨?_, ?_, by norm_num⟩
  · norm_num [mapUnitIntervalToPositiveReals]
  · norm_num [reversed, taylorShiftBy1, taylorShiftBy1Inner, List.range_succ,
      binomial]

/-- C3 counterexample: `findAllRealRoots` does mutate its caller's array.
On `p = [0, 1]` (the polynomial `x`, constant term numerically zero) the
caller's array ends up as `[1]`: the source executes
`polynomial.splice(0, 1)`.  The collaborators are irrelevant to the
argument's final state; trivial ones are supplied. -/
theorem findAllRealRoots_mutates_argument :
    (findAllRealRoots (fun q => q) (fun _ => false) (fun _ => false) (fun _ => [])
        (fun _ _ _ => 0) [0, 1] (1 / 100000)).2 = [1] ∧ ([1] : List ℚ) ≠ [0, 1] := by
  constructor
  · norm_num [findAllRealRoots, numberEpsilon]
  · norm_num

/-- C3 (amended): the exported transform kernels only write into freshly
allocated buffers, but `findAllRealRoots` splices the caller's array: for
every choice of collaborators, precision and input, the argument's final
state is unchanged unless the polynomial is non-empty with a numerically
zero constant term, in which case its first entry is removed. -/
theorem findAllRealRoots_argument_effect (makeSquareFree : List ℚ → List ℚ)
    (hasNeg hasPos : List ℚ → Bool) (isolate : List ℚ → List (ℚ × ℚ))
    (refine : (ℚ → ℚ) → ℚ × ℚ → ℚ → ℚ) (polynomial : List ℚ) (precision : ℚ) :
    (findAllRealRoots makeSquareFree hasNeg hasPos isolate refine polynomial precision).2 =
      if polynomial.length ≠ 0 ∧ |polynomial.getD 0 0| < numberEpsilon then polynomial.drop 1
      else polynomial := by
  rw [findAllRealRoots]
  by_cases h : polynomial.length = 0
  · simp [h]
  · by_cases h2 : |polynomial.getD 0 0| < numberEpsilon <;> simp [h, h2]

/-- C6 counterexample: the claim says the square-free reduction consumed by
the rest of the pipeline is computed from the constant-term-dropped
polynomial; in the code `makeSquareFree(polynomial)` is computed from the
original polynomial, before the splice.  With collaborators that expose
which polynomial is passed on (`makeSquareFree` the identity, an existence
test keyed on the length, midpoint refinement), the code isolates the roots
of the full `x^2 - x` and returns `[0, 1]`, while the spec's ordering works
on the dropped `x - 1` and would return `[0]`. -/
theorem findAllRealRoots_squareFree_order_cex :
    (findAllRealRoots (fun q => q) (fun _ => false) (fun q => q.length == 3)
        (fun _ => [(1 / 2, 3 / 2)]) (fun _ interval _ => (interval.1 + interval.2) / 2)
        [0, -1, 1] (1 / 100000)).1 = Except.ok [0, 1] ∧
      (findAllRealRootsSpecOrder (fun q => q) (fun _ => false) (fun q => q.length == 3)
          (fun _ => [(1 / 2, 3 / 2)]) (fun _ interval _ => (interval.1 + interval.2) / 2)
          [0, -1, 1] (1 / 100000)).1 = Except.ok [0] ∧
      ([0, 1] : List ℚ) ≠ [0] := by
  refine ⟨?_, ?_, by norm_num⟩
  · rw [findAllRealRoots]
    norm_num [numberEpsilon, processRoots, processRootsStep, List.foldlM,
      round_one_precision, insertRootSorted, Except.bind]
  · rw [findAllRealRootsSpecOrder]
    norm_num [numberEpsilon, Except.bind]

/-- C6 (amended): `findAllRealRoots` records a root at exactly `0` and
removes the constant term from the caller's array when the constant term is
numerically zero, but the square-free reduction driving the rest of the
pipeline is computed from the original polynomial, before the constant term
is dropped: the code coincides with the spec's ordering exactly when the
square-free collaborator is forced to the reduction of the original
polynomial. -/
theorem findAllRealRoots_squareFree_from_original (makeSquareFree : List ℚ → List ℚ)
    (hasNeg hasPos : List ℚ → Bool) (isolate : List ℚ → List (ℚ × ℚ))
    (refine : (ℚ → ℚ) → ℚ × ℚ → ℚ → ℚ) (polynomial : List ℚ) (precision : ℚ) :
    findAllRealRoots makeSquareFree hasNeg hasPos isolate refine polynomial precision =
      findAllRealRootsSpecOrder (fun _ => makeSquareFree polynomial) hasNeg hasPos
        isolate refine polynomial precision := by
  rw [findAllRealRoots, findAllRealRootsSpecOrder]

/-- C10: `findAllRealRoots` throws the "empty input" error exactly on the
empty polynomial, whatever the precision and the collaborators: the check
runs first, and no later step can produce that error (the only other error
the pipeline can raise is the `toFixed` range error). -/
theorem findAllRealRoots_empty_error_iff (makeSquareFree : List ℚ → List ℚ)
    (hasNeg hasPos : List ℚ → Bool) (isolate : List ℚ → List (ℚ × ℚ))
    (refine : (ℚ → ℚ) → ℚ × ℚ → ℚ → ℚ) (polynomial : List ℚ) (precision : ℚ) :
    (findAllRealRoots makeSquareFree hasNeg hasPos isolate refine polynomial precision).1 =
        Except.error JsError.emptyInput ↔ polynomial = [] := by
  rw [findAllRealRoots]
  by_cases h : polynomial.length = 0
  · simp [h, List.length_eq_zero.mp h]
  · simp only [h, if_false]
    constructor
    · intro hc
      exfalso
      revert hc
      set roots0 := if |polynomial.getD 0 0| < numberEpsilon then ([0] : List ℚ) else []
      by_cases h1 : hasNeg (makeSquareFree polynomial) = true
      · simp only [h1, if_true]
        cases hn : processRoots isolate refine (scaleInput (makeSquareFree polynomial) (-1))
            true precision roots0 with
        | error e =>
          intro hc
          simp only [hn, bind, Except.bind] at hc
          cases hc
          exact absurd (processRoots_error_eq _ _ _ _ _ _ _ hn) (by simp)
        | ok roots1 =>
          simp only [hn, bind, Except.bind]
          by_cases h2 : hasPos (makeSquareFree polynomial) = true
          · simp only [h2, if_true]
            intro hc
            exact absurd (processRoots_error_eq _ _ _ _ _ _ _ hc) (by simp)
          · simp only [h2, if_false]
            intro hc
            cases hc
      · simp only [h1, if_false]
        simp only [bind, Except.bind]
        by_cases h2 : hasPos (makeSquareFree polynomial) = true
        · simp only [h2, if_true]
          intro hc
          exact absurd (processRoots_error_eq _ _ _ _ _ _ _ hc) (by simp)
        · simp only [h2, if_false]
          intro hc
          cases hc
    · intro hc
      exact absurd (by simp [hc]) h

/-- C9 counterexample: the rounding step is not total for every precision.
At the positive precision `100` the derived decimal-place count is
`-⌊log10 100⌋ = -2`, and `toFixed(-2)` throws a `RangeError` (modelled as
`none`), which propagates. -/
theorem roundToPrecision_range_error :
    roundToPrecisionBasedOnDecimal 1 100 = none ∧ (0 : ℚ) < 100 := by
  constructor
  · have hf : ⌊(100 : ℚ)⌋ = 100 := by
      rw [Int.floor_eq_iff]
      constructor <;> norm_num
    have hl : floorLog10 100 = 2 := by
      rw [floorLog10, if_pos (by norm_num), hf]
      rfl
    rw [roundToPrecisionBasedOnDecimal, calculateDecimalPlacesFromPrecision,
      if_neg (by norm_num), hl, jsToFixed, if_neg (by norm_num)]
  · norm_num

/-- C9 (amended): a precision `≤ 0` is defused to zero decimal places rather
than raising an error, and for any precision the rounding step succeeds
exactly when the derived decimal-place count lies in `toFixed`'s legal range
`[0, 100]`; positive precisions whose count falls outside that range (for
example any precision `≥ 10`) make the `RangeError` propagate, so the step
is not total. -/
theorem roundToPrecision_behavior (num precision : ℚ) :
    (precision ≤ 0 → calculateDecimalPlacesFromPrecision precision = 0) ∧
      ((roundToPrecisionBasedOnDecimal num precision).isSome ↔
        0 ≤ calculateDecimalPlacesFromPrecision precision ∧
          calculateDecimalPlacesFromPrecision precision ≤ 100) := by
  constructor
  · intro h
    rw [calculateDecimalPlacesFromPrecision, if_pos h]
  · rw [roundToPrecisionBasedOnDecimal, jsToFixed]
    by_cases h : 0 ≤ calculateDecimalPlacesFromPrecision precision ∧
        calculateDecimalPlacesFromPrecision precision ≤ 100
    · rw [if_pos h]
      split_ifs <;> simp [h]
    · rw [if_neg h]
      simp [h]

/-- Witness for the amended C9 statement at the concrete inputs
`num = 1`, `precision = -1`. -/
theorem roundToPrecision_behavior_witness :
    calculateDecimalPlacesFromPrecision (-1) = 0 :=
  (roundToPrecision_behavior 1 (-1)).1 (by norm_num)

/-- In an invariant root list, every later entry lies more than the
tolerance above the head. -/
theorem chain_gap_head (tolerance r : ℚ) (rest : List ℚ) (h0 : 0 ≤ tolerance)
    (h : rootListChain tolerance (r :: rest)) : ∀ y ∈ rest, r + tolerance < y := by
  induction rest generalizing r with
  | nil =>
    intro y hy
    cases hy
  | cons s ss ih =>
    intro y hy
    rw [rootListChain, List.chain'_cons] at h
    rcases List.mem_cons.mp hy with rfl | hy'
    · exact h.1
    · have hs := ih s h.2 y hy'
      have h1 := h.1
      linarith

/-- Every element of `insertRootSorted l x tol` is `x` or an element of
`l`. -/
theorem mem_insertRootSorted (l : List ℚ) (x tolerance y : ℚ)
    (hy : y ∈ insertRootSorted l x tolerance) : y = x ∨ y ∈ l := by
  induction l with
  | nil =>
    rw [insertRootSorted] at hy
    exact Or.inl (List.mem_singleton.mp hy)
  | cons r rest ih =>
    rw [insertRootSorted] at hy
    split_ifs at hy with h1 h2
    · exact Or.inr hy
    · rcases List.mem_cons.mp hy with rfl | hy'
      · exact Or.inl rfl
      · exact Or.inr hy'
    · rcases List.mem_cons.mp hy with h | hy'
      · exact Or.inr (by rw [h]; exact List.mem_cons_self r rest)
      · rcases ih hy' with h | h
        · exact Or.inl h
        · exact Or.inr (List.mem_cons_of_mem r h)

/-- C7: `insertRootSorted` preserves the root-list invariant (strictly
increasing, adjacent entries more than the tolerance apart): if the new
root is within the tolerance of any existing entry the list is returned
unchanged (the first-computed root survives), otherwise the new root is
inserted at its sorted position, and the resulting list again satisfies the
invariant. -/
theorem insertRootSorted_preserves_invariant (tolerance : ℚ) (h0 : 0 ≤ tolerance)
    (l : List ℚ) (hl : rootListChain tolerance l) (x : ℚ) :
    ((∃ r ∈ l, |x - r| ≤ tolerance) → insertRootSorted l x tolerance = l) ∧
      ((∀ r ∈ l, tolerance < |x - r|) →
        insertRootSorted l x tolerance = List.orderedInsert (· ≤ ·) x l) ∧
      rootListChain tolerance (insertRootSorted l x tolerance) := by
  induction l with
  | nil =>
    refine ⟨?_, fun _ => rfl, ?_⟩
    · rintro ⟨r, hr, _⟩
      cases hr
    · rw [insertRootSorted]
      exact List.chain'_singleton x
  | cons r rest ih =>
    have hrest : rootListChain tolerance rest := (List.chain'_cons'.mp hl).2
    obtain ⟨ih1, ih2, ih3⟩ := ih hrest
    by_cases h1 : |x - r| ≤ tolerance
    · have he : insertRootSorted (r :: rest) x tolerance = r :: rest := by
        rw [insertRootSorted, if_pos h1]
      refine ⟨fun _ => he, ?_, by rw [he]; exact hl⟩
      intro hall
      exact absurd h1 (not_le.mpr (hall r (List.mem_cons_self r rest)))
    · by_cases h2 : x < r
      · have he : insertRootSorted (r :: rest) x tolerance = x :: r :: rest := by
          rw [insertRootSorted, if_neg h1, if_pos h2]
        have hgap : x + tolerance < r := by
          have ht : tolerance < |x - r| := not_le.mp h1
          rw [abs_of_neg (sub_neg.mpr h2)] at ht
          linarith
        refine ⟨?_, ?_, ?_⟩
        · rintro ⟨s, hs, habs⟩
          exfalso
          rcases List.mem_cons.mp hs with rfl | hs'
          · exact h1 habs
          · have hgap2 : r + tolerance < s := chain_gap_head tolerance r rest h0 hl s hs'
            have hle : s - x ≤ |x - s| := by
              rw [abs_sub_comm]
              exact le_abs_self (s - x)
            linarith
        · intro _
          rw [he, List.orderedInsert, if_pos (le_of_lt h2)]
        · rw [he, rootListChain, List.chain'_cons]
          exact ⟨hgap, hl⟩
      · have hxr : r + tolerance < x := by
          have ht : tolerance < |x - r| := not_le.mp h1
          rw [abs_of_nonneg (sub_nonneg.mpr (le_of_not_lt h2))] at ht
          linarith
        have he : insertRootSorted (r :: rest) x tolerance =
            r :: insertRootSorted rest x tolerance := by
          rw [insertRootSorted, if_neg h1, if_neg h2]
        refine ⟨?_, ?_, ?_⟩
        · rintro ⟨s, hs, habs⟩
          rcases List.mem_cons.mp hs with rfl | hs'
          · exact absurd habs h1
          · rw [he, ih1 ⟨s, hs', habs⟩]
        · intro hall
          rw [he, ih2 fun s hs => hall s (List.mem_cons_of_mem r hs), List.orderedInsert,
            if_neg (not_le.mpr (by linarith))]
        · rw [he, rootListChain, List.chain'_cons']
          refine ⟨?_, ih3⟩
          intro y hy
          have hy' : y ∈ insertRootSorted rest x tolerance := by
            cases hh : insertRootSorted rest x tolerance with
            | nil => rw [hh] at hy; cases hy
            | cons a as =>
              rw [hh] at hy
              simp only [List.head?_cons, Option.mem_def, Option.some.injEq] at hy
              subst hy
              exact List.mem_cons_self a as
          rcases mem_insertRootSorted rest x tolerance y hy' with rfl | hmem
          · exact hxr
          · exact chain_gap_head tolerance r rest h0 hl y hmem

/-- Witness for C7 at the concrete inputs `tolerance = 1/10`,
`l = [0, 1]`, `x = 1/2`. -/
theorem insertRootSorted_preserves_invariant_witness :
    rootListChain (1 / 10) (insertRootSorted [0, 1] (1 / 2) (1 / 10)) :=
  (insertRootSorted_preserves_invariant (1 / 10) (by norm_num) [0, 1]
    (by rw [rootListChain, List.chain'_cons]
        exact ⟨by norm_num, List.chain'_singleton 1⟩) (1 / 2)).2.2

/-- The source's `binomial` helper computes the exact binomial coefficients
on every input (`0` when `k > n`). -/
theorem binomial_eq_choose : ∀ n k, binomial n k = n.choose k := by
  intro n
  induction n with
  | zero =>
    intro k
    cases k with
    | zero => rfl
    | succ k => simp [binomial, Nat.choose]
  | succ n ih =>
    intro k
    by_cases hsmall : n + 1 ≤ 10
    · by_cases hk : k ≤ n + 1
      · exact binomial_small (n + 1) (by omega) k (by omega)
      · simp only [binomial]
        rw [if_pos (by omega)]
        exact (Nat.choose_eq_zero_of_lt (by omega)).symm
    · simp only [binomial]
      by_cases hk0 : n + 1 < k
      · rw [if_pos hk0]
        exact (Nat.choose_eq_zero_of_lt hk0).symm
      rw [if_neg hk0]
      by_cases hk1 : k = 0 ∨ k = n + 1
      · rw [if_pos hk1]
        rcases hk1 with rfl | rfl
        · simp
        · simp [Nat.choose_self]
      rw [if_neg hk1]
      by_cases hk2 : k = 1 ∨ k = n
      · rw [if_pos hk2]
        rcases hk2 with rfl | rfl
        · simp [Nat.choose_one_right]
        · simp [Nat.choose_succ_self_right]
      rw [if_neg hk2]
      rw [if_neg fun hcon => hsmall hcon.1]
      by_cases hsym : (n + 1) / 2 < k
      · rw [if_pos hsym]
        have h2 : 2 ≤ n + 1 - k := by omega
        obtain ⟨j, hj⟩ : ∃ j, n + 1 - k = j + 1 := ⟨n - k, by omega⟩
        rw [hj, Nat.add_sub_cancel, ih, ih, ← Nat.choose_succ_succ,
          Nat.succ_eq_add_one, Nat.succ_eq_add_one, ← hj, Nat.choose_symm (by omega)]
      · rw [if_neg hsym]
        have h2 : 2 ≤ k := by omega
        obtain ⟨j, hj⟩ : ∃ j, k = j + 1 := ⟨k - 1, by omega⟩
        rw [hj, Nat.add_sub_cancel, ih, ih, ← Nat.choose_succ_succ]

/-- Horner evaluation of `c :: p` unfolds one step. -/
theorem evaluatePolynomial_cons (c : ℚ) (p : List ℚ) (x : ℚ) :
    evaluatePolynomial (c :: p) x = evaluatePolynomial p x * x + c := rfl

/-- Adding `a` into coefficient `k` adds `a * x^k` to the evaluation. -/
theorem evaluatePolynomial_set_add (L : List ℚ) (k : ℕ) (a x : ℚ) (hk : k < L.length) :
    evaluatePolynomial (L.set k (L.getD k 0 + a)) x = evaluatePolynomial L x + a * x ^ k := by
  induction L generalizing k with
  | nil => exact absurd hk (by simp)
  | cons c rest ih =>
    cases k with
    | zero =>
      rw [List.getD_cons_zero, List.set_cons_zero, evaluatePolynomial_cons,
        evaluatePolynomial_cons]
      ring
    | succ k =>
      have hk' : k < rest.length := by simpa using hk
      rw [List.getD_cons_succ, List.set_cons_succ, evaluatePolynomial_cons, ih k hk',
        evaluatePolynomial_cons]
      ring

/-- Function `setAddFold` preserves the length of the buffer. -/
theorem setAddFold_length (f : ℕ → ℚ) (j : ℕ) (L : List ℚ) :
    (setAddFold f j L).length = L.length := by
  rw [setAddFold]
  generalize List.range j = ks
  induction ks generalizing L with
  | nil => rfl
  | cons k ks ih => rw [List.foldl_cons, ih, List.length_set]

/-- Evaluation of `setAddFold`: the additions contribute
`∑ f k * x^k`. -/
theorem evaluatePolynomial_setAddFold (f : ℕ → ℚ) (x : ℚ) :
    ∀ (j : ℕ) (L : List ℚ), j ≤ L.length →
      evaluatePolynomial (setAddFold f j L) x
        = evaluatePolynomial L x + ∑ k ∈ Finset.range j, f k * x ^ k := by
  intro j
  induction j with
  | zero =>
    intro L _
    simp [setAddFold]
  | succ j ih =>
    intro L hL
    rw [setAddFold, List.range_succ, List.foldl_append, List.foldl_cons, List.foldl_nil]
    have hlen : j < (setAddFold f j L).length := by
      rw [setAddFold_length]
      omega
    rw [show (List.range j).foldl (fun acc k => acc.set k (acc.getD k 0 + f k)) L
        = setAddFold f j L from rfl]
    rw [evaluatePolynomial_set_add _ _ _ _ hlen, ih L (by omega), Finset.sum_range_succ]
    ring

/-- The inner-loop sum is the binomial expansion of `(x+s)^i` without its
top term. -/
theorem sum_binomial_mul (i : ℕ) (s x : ℚ) :
    ∑ k ∈ Finset.range i, (binomial i k : ℚ) * s ^ (i - k) * x ^ k = (x + s) ^ i - x ^ i := by
  have h1 : ∀ k ∈ Finset.range i, (binomial i k : ℚ) * s ^ (i - k) * x ^ k
      = x ^ k * s ^ (i - k) * ((i.choose k : ℕ) : ℚ) := by
    intro k _
    rw [binomial_eq_choose]
    ring
  rw [Finset.sum_congr rfl h1]
  have h2 := add_pow x s i
  rw [Finset.sum_range_succ] at h2
  simp only [Nat.choose_self, Nat.sub_self, pow_zero, Nat.cast_one, mul_one] at h2
  linarith

/-- Evaluation of a single outer-loop step of `taylorShift`. -/
theorem evaluatePolynomial_taylorShiftInner (p : List ℚ) (s x : ℚ) (L : List ℚ) (i : ℕ)
    (h : i ≤ L.length) :
    evaluatePolynomial (taylorShiftInner p s L i) x
      = evaluatePolynomial L x + p.getD i 0 * ((x + s) ^ i - x ^ i) := by
  have heq : taylorShiftInner p s L i
      = setAddFold (fun k => p.getD i 0 * (binomial i k : ℚ) * s ^ (i - k)) i L := rfl
  rw [heq, evaluatePolynomial_setAddFold _ x i L h]
  congr 1
  rw [← sum_binomial_mul i s x, Finset.mul_sum]
  exact Finset.sum_congr rfl fun k _ => by ring

/-- Function `taylorShiftInner` preserves the buffer length. -/
theorem taylorShiftInner_length (p : List ℚ) (s : ℚ) (L : List ℚ) (i : ℕ) :
    (taylorShiftInner p s L i).length = L.length :=
  setAddFold_length (fun k => p.getD i 0 * (binomial i k : ℚ) * s ^ (i - k)) i L

/-- The outer loop of `taylorShift` preserves the buffer length. -/
theorem taylorShift_outer_length (p : List ℚ) (s : ℚ) :
    ∀ (j : ℕ) (L : List ℚ), ((List.range j).foldl (taylorShiftInner p s) L).length = L.length := by
  intro j
  induction j with
  | zero => intro L; rfl
  | succ j ih =>
    intro L
    rw [List.range_succ, List.foldl_append, List.foldl_cons, List.foldl_nil,
      taylorShiftInner_length, ih]

/-- Evaluation of the outer loop of `taylorShift`. -/
theorem evaluatePolynomial_taylorShift_outer (p : List ℚ) (s x : ℚ) :
    ∀ (j : ℕ) (L : List ℚ), L.length = p.length → j ≤ p.length →
      evaluatePolynomial ((List.range j).foldl (taylorShiftInner p s) L) x
        = evaluatePolynomial L x
          + ∑ i ∈ Finset.range j, p.getD i 0 * ((x + s) ^ i - x ^ i) := by
  intro j
  induction j with
  | zero =>
    intro L _ _
    simp
  | succ j ih =>
    intro L h1 h2
    rw [List.range_succ, List.foldl_append, List.foldl_cons, List.foldl_nil]
    have hlen : j ≤ ((List.range j).foldl (taylorShiftInner p s) L).length := by
      rw [taylorShift_outer_length, h1]
      omega
    rw [evaluatePolynomial_taylorShiftInner p s x _ j hlen, ih L h1 (by omega),
      Finset.sum_range_succ]
    ring

/-- Horner evaluation as a power-series sum. -/
theorem evaluatePolynomial_eq_sum (p : List ℚ) (x : ℚ) :
    evaluatePolynomial p x = ∑ i ∈ Finset.range p.length, p.getD i 0 * x ^ i := by
  induction p with
  | nil => simp [evaluatePolynomial]
  | cons c rest ih =>
    rw [evaluatePolynomial_cons, ih, List.length_cons, Finset.sum_range_succ']
    simp only [List.getD_cons_succ, List.getD_cons_zero, pow_zero, mul_one]
    rw [Finset.sum_mul]
    congr 1
    refine Finset.sum_congr rfl fun i _ => by ring

/-- C8: evaluating `taylorShift(p, s)` at any `x` agrees with evaluating `p`
at `x + s` (exact arithmetic), because the loops accumulate the binomial
expansion `new[k] += p[i] * C(i,k) * s^(i-k)`; and the `binomial` helper
returns the exact binomial coefficient `C(n,k)` whenever `0 ≤ k ≤ n`. -/
theorem taylorShift_evaluates_shifted (p : List ℚ) (s x : ℚ) :
    evaluatePolynomial (taylorShift p s) x = evaluatePolynomial p (x + s) ∧
      ∀ n k : ℕ, k ≤ n → binomial n k = n.choose k := by
  constructor
  · rw [taylorShift, evaluatePolynomial_taylorShift_outer p s x p.length p rfl le_rfl,
      evaluatePolynomial_eq_sum p x, evaluatePolynomial_eq_sum p (x + s),
      ← Finset.sum_add_distrib]
    refine Finset.sum_congr rfl fun i _ => by ring
  · intro n k _
    exact binomial_eq_choose n k

/-- Witness for C8 at the concrete inputs `p = [1, 2, 3]`, `s = 2`, `x = 1`
(and `n = 5`, `k = 2` for the binomial part). -/
theorem taylorShift_evaluates_shifted_witness :
    evaluatePolynomial (taylorShift [1, 2, 3] 2) 1 = evaluatePolynomial [1, 2, 3] (1 + 2) ∧
      binomial 5 2 = Nat.choose 5 2 :=
  ⟨(taylorShift_evaluates_shifted [1, 2, 3] 2 1).1,
    (taylorShift_evaluates_shifted [] 0 0).2 5 2 (by norm_num)⟩

/-- Image `ToString(-0.5)` is `"-0.5"` (code units `45 48 46 53`). -/
theorem jsNumberCodeUnits_neg_half : jsNumberCodeUnits (-(1 / 2) : ℚ) = [45, 48, 46, 53] := by
  have hq : (-(1 / 2) : ℚ) = ((-1 : ℤ) : ℚ) / ((2 : ℤ) : ℚ) := by norm_num
  have hnum : (-(1 / 2) : ℚ).num = -1 := by
    rw [hq]
    exact rat_num_of_div (-1) 2 (by norm_num) (by decide)
  have hden : (-(1 / 2) : ℚ).den = 2 := by
    rw [hq, rat_den_of_div (-1) 2 (by norm_num) (by decide)]
    rfl
  rw [jsNumberCodeUnits, if_pos (by norm_num : (-(1 / 2) : ℚ) < 0), hnum, hden]
  decide

/-- Image `ToString(-10)` is `"-10"` (code units `45 49 48`). -/
theorem jsNumberCodeUnits_neg_ten : jsNumberCodeUnits (-10 : ℚ) = [45, 49, 48] := by
  have hq : (-10 : ℚ) = ((-10 : ℤ) : ℚ) / ((1 : ℤ) : ℚ) := by norm_num
  have hnum : (-10 : ℚ).num = -10 := by
    rw [hq]
    exact rat_num_of_div (-10) 1 (by norm_num) (by decide)
  have hden : (-10 : ℚ).den = 1 := by
    rw [hq, rat_den_of_div (-10) 1 (by norm_num) (by decide)]
    rfl
  rw [jsNumberCodeUnits, if_pos (by norm_num : (-10 : ℚ) < 0), hnum, hden]
  decide

/-- The default (string) sort keeps `-0.5` before `-10`, because
`"-0.5" < "-10"` lexicographically. -/
theorem jsSortDefault_pair : jsSortDefault [-(1 / 2), -10] = [-(1 / 2), -10] := by
  rw [jsSortDefault]
  simp only [List.foldr_cons, List.foldr_nil]
  rw [show jsInsert (-10 : ℚ) [] = [-10] from rfl]
  simp only [jsInsert]
  rw [jsNumberCodeUnits_neg_half, jsNumberCodeUnits_neg_ten,
    show codeUnitsLt [45, 48, 46, 53] [45, 49, 48] = true from by decide]
  simp

/-- One unfolding step of the spec-modelled bisection loop. -/
theorem bisectGo_succ (f : ℚ → ℚ) (precision : ℚ) (fuel : ℕ) (a b : ℚ) :
    bisectGo f precision (fuel + 1) (a, b) =
      if b - a < precision then (a + b) / 2
      else if f ((a + b) / 2) = 0 then (a + b) / 2
      else if f a * f ((a + b) / 2) < 0 then bisectGo f precision fuel (a, (a + b) / 2)
      else bisectGo f precision fuel ((a + b) / 2, b) := rfl

/-- Bisecting `x^2 - 21/2 x + 5` on `(0, 1)` hits the root `1/2` at the
first midpoint. -/
theorem bisect_half :
    refineRootIntervalBisection (fun x => evaluatePolynomial [5, -(21 / 2), 1] x) (0, 1)
        (1 / 100000) = 1 / 2 := by
  rw [refineRootIntervalBisection, show (200 : ℕ) = 199 + 1 from rfl, bisectGo_succ,
    if_neg (by norm_num), if_pos (by norm_num [evaluatePolynomial])]
  norm_num

/-- Bisecting `x^2 - 21/2 x + 5` on `(9, 11)` hits the root `10` at the
first midpoint. -/
theorem bisect_ten :
    refineRootIntervalBisection (fun x => evaluatePolynomial [5, -(21 / 2), 1] x) (9, 11)
        (1 / 100000) = 10 := by
  rw [refineRootIntervalBisection, show (200 : ℕ) = 199 + 1 from rfl, bisectGo_succ,
    if_neg (by norm_num), if_pos (by norm_num [evaluatePolynomial])]
  norm_num

/-- Negating the input of `(x + 1/2)(x + 10)` gives `(x - 1/2)(x - 10)`. -/
theorem scaleInput_neg_example : scaleInput [5, 21 / 2, 1] (-1) = [5, -(21 / 2), 1] := by
  norm_num [scaleInput, mapWithIndex]

/-- C4: on `p = (x + 1/2)(x + 10)` (coefficients `[5, 21/2, 1]`), with the
spec-modelled bisection refiner and valid isolating intervals `(0,1)` and
`(9,11)` for the negated polynomial, `findStrictlyNegativeRoots` returns
`[-0.5, -10]`: the final `.sort()` uses the default string comparator
(`"-0.5" < "-10"`), so the result is not in ascending numerical order.  The
other collaborators are spec-conforming at this input (`p` is square-free,
and it does have strictly negative roots). -/
theorem findStrictlyNegativeRoots_not_ascending :
    findStrictlyNegativeRoots (fun q => q) (fun _ => true)
        (fun _ => [(0, 1), (9, 11)]) refineRootIntervalBisection [5, 21 / 2, 1] (1 / 100000)
      = [-(1 / 2), -10] ∧
      ¬ List.Chain' (· < ·) [-(1 / 2), (-10 : ℚ)] := by
  constructor
  · rw [findStrictlyNegativeRoots, if_neg (by simp)]
    simp only [scaleInput_neg_example, List.map_cons, List.map_nil, bisect_half, bisect_ten]
    exact jsSortDefault_pair
  · rw [List.chain'_cons]
    push_neg
    intro hc
    exact absurd hc (by norm_num)

/-- C5: the sign-symmetry property fails on the same input: the left-hand
side (the code) returns `[-0.5, -10]` in default string order, while
negating `findStrictlyPositiveRoots(scaleInput(p, -1), eps)` and sorting in
ascending numerical order yields `[-10, -0.5]`. -/
theorem signSymmetry_violated :
    findStrictlyNegativeRoots (fun q => q) (fun _ => true)
        (fun _ => [(0, 1), (9, 11)]) refineRootIntervalBisection [5, 21 / 2, 1] (1 / 100000)
      = [-(1 / 2), -10] ∧
      List.insertionSort (· ≤ ·)
          ((findStrictlyPositiveRoots (fun q => q) (fun _ => true)
              (fun _ => [(0, 1), (9, 11)]) refineRootIntervalBisection
              (scaleInput [5, 21 / 2, 1] (-1)) (1 / 100000)).map fun root => -root)
        = [-10, -(1 / 2)] ∧
      ([-(1 / 2), -10] : List ℚ) ≠ [-10, -(1 / 2)] := by
  refine ⟨?_, ?_, by norm_num⟩
  · rw [findStrictlyNegativeRoots, if_neg (by simp)]
    simp only [scaleInput_neg_example, List.map_cons, List.map_nil, bisect_half, bisect_ten]
    exact jsSortDefault_pair
  · rw [findStrictlyPositiveRoots, if_neg (by simp)]
    simp only [scaleInput_neg_example, List.map_cons, List.map_nil, bisect_half, bisect_ten]
    norm_num [List.insertionSort, List.orderedInsert]

/-- Digit-count correctness of the fuel-driven decimal logarithm. -/
theorem natLog10go_spec : ∀ (fuel n : ℕ), 1 ≤ n → n ≤ fuel →
    10 ^ natLog10go fuel n ≤ n ∧ n < 10 ^ (natLog10go fuel n + 1) := by
  intro fuel
  induction fuel with
  | zero =>
    intro n h1 h2
    omega
  | succ fuel ih =>
    intro n h1 h2
    by_cases h : n < 10
    · rw [natLog10go, if_pos h]
      refine ⟨by simpa using h1, by simpa using h⟩
    · rw [natLog10go, if_neg h]
      obtain ⟨ih1, ih2⟩ := ih (n / 10) (by omega) (by omega)
      have e1 : (10 : ℕ) ^ (natLog10go fuel (n / 10) + 1)
          = 10 ^ natLog10go fuel (n / 10) * 10 := pow_succ 10 _
      have e2 : (10 : ℕ) ^ (natLog10go fuel (n / 10) + 1 + 1)
          = 10 ^ natLog10go fuel (n / 10) * 10 * 10 := by
        rw [pow_succ, pow_succ]
      omega

/-- Function `natLog10` computes `⌊log10 n⌋` for `n ≥ 1`. -/
theorem natLog10_spec (n : ℕ) (h : 1 ≤ n) :
    10 ^ natLog10 n ≤ n ∧ n < 10 ^ (natLog10 n + 1) :=
  natLog10go_spec n n h le_rfl

/-- With enough fuel, `posExp10` finds the least exponent `e` with
`1 ≤ q * 10^e`. -/
theorem posExp10_spec : ∀ (fuel : ℕ) (q : ℚ), 0 < q → 1 ≤ q * 10 ^ fuel →
    1 ≤ q * 10 ^ posExp10 fuel q ∧
      (0 < posExp10 fuel q → q * 10 ^ (posExp10 fuel q - 1) < 1) := by
  intro fuel
  induction fuel with
  | zero =>
    intro q _ h1
    rw [posExp10]
    exact ⟨h1, fun hc => absurd hc (by simp)⟩
  | succ fuel ih =>
    intro q h0 h1
    by_cases h : 1 ≤ q
    · rw [posExp10, if_pos h]
      exact ⟨by simpa using h, fun hc => absurd hc (by simp)⟩
    · rw [posExp10, if_neg h]
      have h10 : 1 ≤ q * 10 * 10 ^ fuel := by
        have he : q * 10 ^ (fuel + 1) = q * 10 * 10 ^ fuel := by ring
        linarith [h1, he.symm.le, he.le]
      obtain ⟨s1, s2⟩ := ih (q * 10) (by positivity) h10
      constructor
      · have he : q * 10 ^ (posExp10 fuel (q * 10) + 1)
            = q * 10 * 10 ^ posExp10 fuel (q * 10) := by ring
        linarith
      · intro _
        rw [Nat.add_sub_cancel]
        rcases Nat.eq_zero_or_pos (posExp10 fuel (q * 10)) with he | he
        · rw [he]
          simpa using not_le.mp h
        · have hs := s2 he
          obtain ⟨j, hj⟩ : ∃ j, posExp10 fuel (q * 10) = j + 1 :=
            ⟨posExp10 fuel (q * 10) - 1, by omega⟩
          have heq : q * 10 * 10 ^ (posExp10 fuel (q * 10) - 1)
              = q * 10 ^ posExp10 fuel (q * 10) := by
            rw [hj, Nat.add_sub_cancel, pow_succ]
            ring
          linarith

/-- Identity `q * q.den = q.num` over `ℚ`. -/
theorem rat_mul_den (q : ℚ) : q * (q.den : ℚ) = (q.num : ℚ) := by
  have hden0 : ((q.den : ℚ)) ≠ 0 := Nat.cast_ne_zero.mpr q.den_nz
  nth_rewrite 1 [← Rat.num_div_den q]
  rw [div_mul_cancel₀ _ hden0]

/-- Function `floorLog10` is the exact `⌊log10⌋` on positive rationals: `q` lies in
`[10^floorLog10 q, 10^(floorLog10 q + 1))`.  This certifies the model of
`Math.floor(Math.log10(precision))` used by the rounding step. -/
theorem floorLog10_spec (q : ℚ) (hq : 0 < q) :
    (10 : ℚ) ^ floorLog10 q ≤ q ∧ q < (10 : ℚ) ^ (floorLog10 q + 1) := by
  by_cases h : 1 ≤ q
  · rw [floorLog10, if_pos h]
    have hfl : 1 ≤ ⌊q⌋ := Int.le_floor.mpr (by exact_mod_cast h)
    have hn : 1 ≤ ⌊q⌋.toNat := by omega
    obtain ⟨s1, s2⟩ := natLog10_spec ⌊q⌋.toNat hn
    have hcast : ((⌊q⌋.toNat : ℕ) : ℚ) = ((⌊q⌋ : ℤ) : ℚ) := by
      exact_mod_cast congrArg (fun z : ℤ => (z : ℚ)) (Int.toNat_of_nonneg (by omega))
    constructor
    · rw [zpow_natCast]
      calc ((10 : ℚ) ^ natLog10 ⌊q⌋.toNat) ≤ ((⌊q⌋.toNat : ℕ) : ℚ) := by exact_mod_cast s1
        _ = ((⌊q⌋ : ℤ) : ℚ) := hcast
        _ ≤ q := Int.floor_le q
    · have hstep : ((⌊q⌋.toNat : ℕ) : ℚ) + 1 ≤ (10 : ℚ) ^ (natLog10 ⌊q⌋.toNat + 1) := by
        exact_mod_cast Nat.succ_le_of_lt s2
      have hlt : q < ((⌊q⌋ : ℤ) : ℚ) + 1 := Int.lt_floor_add_one q
      rw [show ((natLog10 ⌊q⌋.toNat : ℤ)) + 1 = ((natLog10 ⌊q⌋.toNat + 1 : ℕ) : ℤ) by
        push_cast; ring, zpow_natCast]
      rw [← hcast] at hlt
      linarith
  · rw [floorLog10, if_neg h]
    have hnum : 1 ≤ q.num := Rat.num_pos.mpr hq
    have hq1 : 1 ≤ q * (q.den : ℚ) := by
      rw [rat_mul_den]
      exact_mod_cast hnum
    have hdenlt : (q.den : ℚ) < (10 : ℚ) ^ (natLog10 q.den + 1) := by
      exact_mod_cast (natLog10_spec q.den (by exact_mod_cast q.pos)).2
    have hpre : 1 ≤ q * 10 * 10 ^ (natLog10 q.den + 1) := by
      have hlt : q * (q.den : ℚ) < q * 10 ^ (natLog10 q.den + 1) :=
        mul_lt_mul_of_pos_left hdenlt hq
      nlinarith [pow_pos (show (0 : ℚ) < 10 by norm_num) (natLog10 q.den + 1)]
    obtain ⟨s1, s2⟩ := posExp10_spec (natLog10 q.den + 1) (q * 10) (by positivity) hpre
    set e := posExp10 (natLog10 q.den + 1) (q * 10) with hedef
    have hs1 : 1 ≤ q * 10 ^ (e + 1) := by
      have hm : q * 10 ^ (e + 1) = q * 10 * 10 ^ e := by ring
      linarith
    have hkey : q * 10 ^ e < 1 := by
      rcases Nat.eq_zero_or_pos e with he0 | hepos
      · rw [he0]
        simpa using not_le.mp h
      · have hs := s2 hepos
        obtain ⟨j, hj⟩ : ∃ j, e = j + 1 := ⟨e - 1, by omega⟩
        have heq : q * 10 * 10 ^ (e - 1) = q * 10 ^ e := by
          rw [hj, Nat.add_sub_cancel, pow_succ]
          ring
        linarith
    constructor
    · have hz : (10 : ℚ) ^ (-((e + 1 : ℕ) : ℤ)) = ((10 : ℚ) ^ (e + 1))⁻¹ := by
        rw [zpow_neg, zpow_natCast]
      rw [hz, inv_eq_one_div, div_le_iff₀ (by positivity)]
      linarith
    · have hz : (10 : ℚ) ^ (-((e + 1 : ℕ) : ℤ) + 1) = ((10 : ℚ) ^ e)⁻¹ := by
        rw [show -((e + 1 : ℕ) : ℤ) + 1 = -((e : ℕ) : ℤ) by push_cast; ring, zpow_neg,
          zpow_natCast]
      rw [hz, inv_eq_one_div, lt_div_iff₀ (by positivity)]
      linarith

end PolyRoots
